import Mathlib

/-!
Verification of the block-commitment vector-commitment engine of
crates/block-commitment/src/vc.rs: the functions commit, open, verify and
to_bytes of the CommitmentScheme implementation.

Embedding choice: the two source groups and the target group of the pairing
engine are cyclic of prime order r (the scalar field's order), so every group
element is represented by its discrete logarithm, an element of the scalar
field F.  Scalar multiplication of a point becomes field multiplication of
exponents, point addition becomes field addition, the bilinear pairing
multiplies the two exponents (the fixed generators have exponent 1), and the
product in the target group adds exponents.  Rust panics (failed assertions,
out-of-bounds slices and indices, usize underflow, unwrap of a failed field
inversion) are represented by Option.none.
-/

namespace BlockCommitment

/-- A half-open index window of a list, as in a Rust slice l[a..b]: the sublist
when the bounds are ordered and inside the list, none when the slice would
panic. -/
def slice? {α : Type} (l : List α) (a b : ℕ) : Option (List α) :=
  if a ≤ b ∧ b ≤ l.length then some ((l.drop a).take (b - a)) else none

/-- Multi-scalar multiplication in discrete-log form, mirroring
VariableBaseMSM.multi_scalar_mul: the weighted sum of base points, with each
base point represented by its exponent. -/
def msm {F : Type} [Field F] (bases scalars : List F) : F :=
  (List.zipWith (fun b s => s * b) bases scalars).sum

/-- Modelled from the spec: the Prover Parameter record of the crate's param
module, which is absent from the sources (only vc.rs is present).  The
capacity N is a type-level constant, as the Rust const generic; g is the SRS
in the first source group, one exponent per element. -/
structure ProverParam (F : Type) (N : ℕ) where
  g : List F

/-- Modelled from the spec: the Verifier Parameter record of the crate's param
module, absent from the sources: h is the SRS in the second source group and
t the precomputed target-group reference constant, in exponent form. -/
structure VerifierParam (F : Type) (N : ℕ) where
  h : List F
  t : F

/-- One commitment: a single first-source-group element, the inner field of the
Commitment struct of vc.rs. -/
structure Commitment (F : Type) where
  inner : F

/-- The commit function of vc.rs: assert inputs.len() <= N, then the MSM of the
inputs against the SRS prefix g[0..len].  A panic of the assertion or of the
slice is none. -/
def commit {F : Type} [Field F] {N : ℕ} (pp : ProverParam F N)
    (inputs : List F) : Option (Commitment F) :=
  if inputs.length ≤ N then
    (slice? pp.g 0 inputs.length).map (fun bases => ⟨msm bases inputs⟩)
  else none

/-- The open function of vc.rs (open is reserved in Lean): assert
inputs.len() <= N, then the MSM of the inputs against the shifted SRS window
g[N-pos..N-pos+len].  The pos ≤ N guard models the usize underflow of N - pos,
which panics directly in debug mode and through the resulting out-of-range
slice in release mode. -/
def openAt {F : Type} [Field F] {N : ℕ} (pp : ProverParam F N)
    (inputs : List F) (pos : ℕ) : Option F :=
  if inputs.length ≤ N then
    if pos ≤ N then
      (slice? pp.g (N - pos) (N - pos + inputs.length)).map
        (fun bases => msm bases inputs)
    else none
  else none

/-- The verify function of vc.rs: input.inverse().unwrap() first (a panic at
zero, hence none), then the pairing-product check
e(commitment^(1/v), h[N-pos-1]) * e(witness^(-1/v), generator) == t, with the
index underflow of N - pos - 1 and the out-of-bounds read of h both panics. -/
def verify {F : Type} [Field F] [DecidableEq F] {N : ℕ} (c : Commitment F)
    (vp : VerifierParam F N) (input : F) (pos : ℕ) (w : F) : Option Bool :=
  if input = 0 then none
  else if N < pos + 1 then none
  else
    match vp.h[N - pos - 1]? with
    | none => none
    | some hj =>
        some (decide (c.inner * input⁻¹ * hj + w * -input⁻¹ * 1 = vp.t))

/-- The verification predicate transcribed from the spec's own words: scale the
commitment by value⁻¹ and the witness by the negated inverse, pair them with
h[N-pos-1] and the second-group generator, and compare the product with t.
Stated with total operations, for comparison against the code's verify. -/
def specVerify {F : Type} [Field F] [DecidableEq F] {N : ℕ} (c : Commitment F)
    (vp : VerifierParam F N) (v : F) (pos : ℕ) (w : F) : Bool :=
  decide (c.inner * v⁻¹ * vp.h.getD (N - pos - 1) 0 + w * -v⁻¹ * 1 = vp.t)

/-- Little-endian fixed-width base-256 limbs of a natural number. -/
def bytesLE : ℕ → ℕ → List ℕ
  | 0, _ => []
  | k + 1, n => (n % 256) :: bytesLE k (n / 256)

/-- Reassemble a little-endian byte list into a natural number. -/
def fromBytesLE : List ℕ → ℕ
  | [] => 0
  | b :: bs => b + 256 * fromBytesLE bs

/-- The to_bytes function of vc.rs.  Modelled from the spec where it leaves the
sources: the body delegates to the curve library's canonical point encoding,
which the spec fixes only as deterministic and of fixed length for the chosen
curve; here the group element, in exponent form over ZMod r, is encoded as the
k little-endian base-256 limbs of its canonical representative. -/
def to_bytes {r : ℕ} [NeZero r] (c : Commitment (ZMod r)) (k : ℕ) : List ℕ :=
  bytesLE k c.inner.val

/-- Modelled from the spec: the curve library's canonical point decoding, the
re-parsing step of the serialization round-trip. -/
def fromBytes (r : ℕ) (bytes : List ℕ) : ZMod r :=
  (fromBytesLE bytes : ZMod r)

/-- Modelled from the spec: the one-time trusted setup of the Parameter
Authority (the crate's param module, absent from the sources).  The spec gives
g[i] the trapdoor power structure generator^(alpha^i) over a range wide enough
for shifted openings (2N entries here) and h the mirrored structure in the
second source group (N entries), with t a precomputed pairing reference
constant.  It further requires that in open's shifted window every term except
the one at i = pos degenerates and cancels; this forces the single SRS power
at the commit/open overlap index N to be absent, i.e. the group identity (the
deleted trapdoor power of this SRS family), and fixes
t = e(generator, generator)^(alpha^(N+1)).  In exponent form the i-th entry of
g is alpha^(i+1) for i ≠ N and 0 at i = N. -/
def setup (F : Type) [Field F] (N : ℕ) (α : F) :
    ProverParam F N × VerifierParam F N :=
  (⟨(List.range (2 * N)).map (fun i => if i = N then 0 else α ^ (i + 1))⟩,
   ⟨(List.range N).map (fun j => α ^ (j + 1)), α ^ (N + 1)⟩)

instance fact_prime_five : Fact (Nat.Prime 5) := ⟨by norm_num⟩

/-- An MSM over lists of matching usable length is the indexed sum of
scalar-times-base products. -/
lemma msm_eq_sum {F : Type} [Field F] :
    ∀ (bs xs : List F), xs.length ≤ bs.length →
      msm bs xs = ∑ i in Finset.range xs.length, xs.getD i 0 * bs.getD i 0 := by
  intro bs xs
  induction xs generalizing bs with
  | nil => intro _; simp [msm]
  | cons x xs ih =>
    intro h
    cases bs with
    | nil => simp at h
    | cons b bs =>
      have h' : xs.length ≤ bs.length := by
        simp only [List.length_cons] at h; omega
      have hstep : msm (b :: bs) (x :: xs) = x * b + msm bs xs := rfl
      simp only [List.length_cons]
      rw [hstep, ih bs h', Finset.sum_range_succ']
      simp only [List.getD_cons_succ, List.getD_cons_zero]
      ring

/-- An MSM against a window of a long list, as the indexed sum over shifted
positions of the list. -/
lemma msm_window {F : Type} [Field F] (l xs : List F) (a : ℕ)
    (h : a + xs.length ≤ l.length) :
    msm ((l.drop a).take xs.length) xs
      = ∑ i in Finset.range xs.length, xs.getD i 0 * l.getD (a + i) 0 := by
  rw [msm_eq_sum]
  · refine Finset.sum_congr rfl ?_
    intro i hi
    rw [Finset.mem_range] at hi
    congr 1
    simp only [List.getD_eq_getElem?_getD]
    rw [show ((l.drop a).take xs.length)[i]? = (l.drop a)[i]? by
          simp [List.getElem?_take, hi]]
    rw [List.getElem?_drop]
  · simp only [List.length_take, List.length_drop]
    omega

lemma setup_g_length {F : Type} [Field F] (N : ℕ) (α : F) :
    (setup F N α).1.g.length = 2 * N := by
  simp [setup]

/-- Entry i of the modelled prover SRS, in exponent form. -/
lemma setup_g_getD {F : Type} [Field F] (N : ℕ) (α : F) (i : ℕ)
    (h : i < 2 * N) :
    (setup F N α).1.g.getD i 0 = if i = N then 0 else α ^ (i + 1) := by
  simp [setup, List.getD_eq_getElem?_getD, List.getElem?_map,
    List.getElem?_range, h]

/-- Entry j of the modelled verifier SRS, in exponent form. -/
lemma setup_h_getElem {F : Type} [Field F] (N : ℕ) (α : F) (j : ℕ)
    (h : j < N) :
    (setup F N α).2.h[j]? = some (α ^ (j + 1)) := by
  simp [setup, List.getElem?_map, List.getElem?_range, h]

/-- At most N inputs commit, over the modelled setup, to the weighted power sum
of the trapdoor. -/
lemma commit_setup {F : Type} [Field F] (N : ℕ) (α : F) (inputs : List F)
    (hlen : inputs.length ≤ N) :
    commit (setup F N α).1 inputs
      = some ⟨∑ i in Finset.range inputs.length,
          inputs.getD i 0 * α ^ (i + 1)⟩ := by
  have hg : (setup F N α).1.g.length = 2 * N := setup_g_length N α
  have hb : inputs.length ≤ (setup F N α).1.g.length := by omega
  have hstep : commit (setup F N α).1 inputs
      = some ⟨msm (((setup F N α).1.g.drop 0).take (inputs.length - 0))
          inputs⟩ := by
    unfold commit slice?
    rw [if_pos hlen, if_pos ⟨Nat.zero_le _, hb⟩]
    rfl
  rw [hstep, Nat.sub_zero, msm_window _ _ _ (by omega)]
  refine congrArg some (congrArg Commitment.mk (Finset.sum_congr rfl ?_))
  intro i hi
  rw [Finset.mem_range] at hi
  rw [Nat.zero_add, setup_g_getD N α i (by omega),
    if_neg (by omega : ¬ i = N)]

/-- Opening at pos ≤ N computes, over the modelled setup, the same weighted
power sum shifted by N - pos, with the hole of the SRS zeroing the term at
the opened position. -/
lemma openAt_setup {F : Type} [Field F] (N : ℕ) (α : F) (inputs : List F)
    (pos : ℕ) (hlen : inputs.length ≤ N) (hpos : pos ≤ N) :
    openAt (setup F N α).1 inputs pos
      = some (∑ i in Finset.range inputs.length,
          inputs.getD i 0
            * (if N - pos + i = N then 0 else α ^ (N - pos + i + 1))) := by
  have hg : (setup F N α).1.g.length = 2 * N := setup_g_length N α
  have hcond : N - pos ≤ N - pos + inputs.length ∧
      N - pos + inputs.length ≤ (setup F N α).1.g.length := by omega
  have hstep : openAt (setup F N α).1 inputs pos
      = some (msm (((setup F N α).1.g.drop (N - pos)).take
          (N - pos + inputs.length - (N - pos))) inputs) := by
    unfold openAt slice?
    rw [if_pos hlen, if_pos hpos, if_pos hcond]
    rfl
  rw [hstep,
    show N - pos + inputs.length - (N - pos) = inputs.length by omega,
    msm_window _ _ _ (by omega)]
  refine congrArg some (Finset.sum_congr rfl ?_)
  intro i hi
  rw [Finset.mem_range] at hi
  rw [setup_g_getD N α (N - pos + i) (by omega)]

/-- The central cancellation of the scheme: the commitment sum scaled by the
shift power, minus the opening sum, collapses to the opened value times the
hidden power alpha^(N+1), because the two sums agree termwise away from the
opened position and the SRS hole deletes exactly that term. -/
lemma key_cancel {F : Type} [Field F] (N : ℕ) (α : F) (inputs : List F)
    (pos : ℕ) (hpos : pos < inputs.length) (hlen : inputs.length ≤ N) :
    (∑ i in Finset.range inputs.length, inputs.getD i 0 * α ^ (i + 1))
        * α ^ (N - pos)
      - (∑ i in Finset.range inputs.length,
          inputs.getD i 0
            * (if N - pos + i = N then 0 else α ^ (N - pos + i + 1)))
      = inputs.getD pos 0 * α ^ (N + 1) := by
  rw [Finset.sum_mul, ← Finset.sum_sub_distrib]
  have h0 : ∀ i ∈ Finset.range inputs.length, i ≠ pos →
      inputs.getD i 0 * α ^ (i + 1) * α ^ (N - pos)
        - inputs.getD i 0
            * (if N - pos + i = N then 0 else α ^ (N - pos + i + 1)) = 0 := by
    intro i hi hne
    rw [Finset.mem_range] at hi
    rw [if_neg (by omega : ¬ N - pos + i = N), mul_assoc, ← pow_add,
      (by omega : i + 1 + (N - pos) = N - pos + i + 1), sub_self]
  rw [Finset.sum_eq_single_of_mem pos (Finset.mem_range.mpr hpos) h0,
    if_pos (by omega : N - pos + pos = N), mul_zero, sub_zero, mul_assoc,
    ← pow_add, (by omega : pos + 1 + (N - pos) = N + 1)]

/-- Decoding the k little-endian limbs of n recovers n modulo 256^k. -/
lemma fromBytesLE_bytesLE (k n : ℕ) :
    fromBytesLE (bytesLE k n) = n % 256 ^ k := by
  induction k generalizing n with
  | zero => simp [bytesLE, fromBytesLE, Nat.mod_one]
  | succ k ih =>
    have h1 := Nat.div_add_mod (n % (256 * 256 ^ k)) 256
    rw [Nat.mod_mul_right_div_self, Nat.mod_mod_of_dvd _ ⟨256 ^ k, rfl⟩] at h1
    simp only [bytesLE, fromBytesLE, ih]
    rw [pow_succ']
    omega

/-- C2: verify called with claimed value zero hits the unwrap of the failed
field inversion before anything else, so for every commitment, verifier
parameter, position and witness the call panics (none in the embedding)
instead of returning a typed InvalidInput error. -/
theorem verify_zero_input_panics {F : Type} [Field F] [DecidableEq F] {N : ℕ}
    (c : Commitment F) (vp : VerifierParam F N) (pos : ℕ) (w : F) :
    verify c vp 0 pos w = none := by
  unfold verify
  rw [if_pos rfl]

/-- C3: one past capacity (N = 1, two inputs) both commit and open trip the
length assertion, i.e. panic (none in the embedding) instead of returning a
recoverable CapacityExceeded error. -/
theorem capacity_overflow_panics :
    commit (N := 1) (⟨[1, 1]⟩ : ProverParam (ZMod 5) 1) [1, 1] = none ∧
      openAt (N := 1) (⟨[1, 1]⟩ : ProverParam (ZMod 5) 1) [1, 1] 0 = none := by
  exact ⟨rfl, rfl⟩

/-- C4 counterexample: N = 1 with g of length 2N - 1 = 1, pos = 0 < N and a
full-length input vector satisfy every hypothesis of the claim, yet the
shifted window g[1..2] is out of the bounds of g, so open panics (none): 2N - 1
SRS entries do not suffice for the claimed in-bounds guarantee. -/
theorem open_window_oob_with_short_srs :
    openAt (N := 1) (⟨[1]⟩ : ProverParam (ZMod 5) 1) [1] 0 = none := by
  rfl

/-- C4 amended: with 0 ≤ pos < N, len(inputs) ≤ N, at least 2N entries in g
(not 2N - 1) and at least N entries in h, the index arithmetic of open and
verify neither underflows nor goes out of bounds: open's shifted window lies
inside g and verify's read of h[N-pos-1] is in bounds, so neither call panics
on indexing (verify also needs a nonzero claimed value to get past the
inversion). -/
theorem index_arith_in_bounds {F : Type} [Field F] [DecidableEq F] {N : ℕ}
    (pp : ProverParam F N) (vp : VerifierParam F N) (inputs : List F)
    (pos : ℕ) (v : F) (c : Commitment F) (w : F)
    (hpos : pos < N) (hlen : inputs.length ≤ N)
    (hg : 2 * N ≤ pp.g.length) (hh : N ≤ vp.h.length) (hv : v ≠ 0) :
    (openAt pp inputs pos).isSome ∧ (verify c vp v pos w).isSome := by
  constructor
  · unfold openAt slice?
    rw [if_pos hlen, if_pos (by omega : pos ≤ N),
      if_pos ⟨by omega, by omega⟩]
    rfl
  · unfold verify
    rw [if_neg hv, if_neg (by omega : ¬ N < pos + 1),
      List.getElem?_eq_getElem (by omega : N - pos - 1 < vp.h.length)]
    rfl

/-- C4 amended, witness: a concrete instance with N = 1 and exactly 2N = 2
entries in g. -/
theorem index_arith_in_bounds_witness :
    (openAt (N := 1) (⟨[1, 2]⟩ : ProverParam (ZMod 5) 1) [1] 0).isSome ∧
      (verify (N := 1) (⟨1⟩ : Commitment (ZMod 5)) ⟨[1], 1⟩ 1 0 0).isSome :=
  index_arith_in_bounds ⟨[1, 2]⟩ ⟨[1], 1⟩ [1] 0 1 ⟨1⟩ 0 (by decide)
    (by decide) (by decide) (by decide) (by decide)

/-- C9: open validates pos against neither the capacity N nor the input
length: at pos = N, one past the spec's permitted range, the shifted window is
g[0..len], the very window commit uses, so open succeeds whenever the inputs
fit and g is long enough, and returns exactly the committed group element. -/
theorem open_at_capacity_pos_eq_commit {F : Type} [Field F] {N : ℕ}
    (pp : ProverParam F N) (inputs : List F)
    (hlen : inputs.length ≤ N) (hg : inputs.length ≤ pp.g.length) :
    openAt pp inputs N = (commit pp inputs).map Commitment.inner ∧
      (openAt pp inputs N).isSome := by
  have hsub : N - N = 0 := Nat.sub_self N
  constructor
  · unfold openAt commit
    rw [if_pos hlen, if_pos hlen, if_pos (le_refl N), hsub, Nat.zero_add]
    cases hslice : slice? pp.g 0 inputs.length with
    | none => rfl
    | some bs => rfl
  · unfold openAt slice?
    rw [if_pos hlen, if_pos (le_refl N), hsub, Nat.zero_add,
      if_pos ⟨Nat.zero_le _, hg⟩]
    rfl

/-- C9, witness: a concrete prover parameter with N = 1, opened at pos = 1. -/
theorem open_at_capacity_pos_eq_commit_witness :
    (openAt (N := 1) (⟨[1, 2]⟩ : ProverParam (ZMod 5) 1) [1] 1
        = (commit (N := 1) (⟨[1, 2]⟩ : ProverParam (ZMod 5) 1) [1]).map
            Commitment.inner) ∧
      (openAt (N := 1) (⟨[1, 2]⟩ : ProverParam (ZMod 5) 1) [1] 1).isSome :=
  open_at_capacity_pos_eq_commit ⟨[1, 2]⟩ [1] (by decide) (by decide)

/-- C10: commit of the empty vector succeeds for every prover parameter (the
length precondition holds vacuously, the base and scalar windows are empty)
and returns the identity, i.e. exponent zero, of the first source group. -/
theorem commit_nil {F : Type} [Field F] {N : ℕ} (pp : ProverParam F N) :
    commit pp [] = some ⟨0⟩ := by
  simp [commit, slice?, msm]

/-- C5: on a nonzero claimed value and a position below capacity, with the
verifier SRS long enough, the code's verify returns exactly the predicate
transcribed from the spec: true iff the pairing product
e(commitment^(1/v), h[N-pos-1]) * e(witness^(-1/v), generator) equals t. -/
theorem verify_eq_specVerify {F : Type} [Field F] [DecidableEq F] {N : ℕ}
    (c : Commitment F) (vp : VerifierParam F N) (v : F) (pos : ℕ) (w : F)
    (hv : v ≠ 0) (hpos : pos < N) (hh : N ≤ vp.h.length) :
    verify c vp v pos w = some (specVerify c vp v pos w) := by
  have hidx : N - pos - 1 < vp.h.length := by omega
  unfold verify specVerify
  rw [if_neg hv, if_neg (by omega : ¬ N < pos + 1),
    List.getElem?_eq_getElem hidx]
  simp only [List.getD_eq_getElem?_getD, List.getElem?_eq_getElem hidx,
    Option.getD_some]

/-- C5, witness: a concrete verifier parameter with N = 1 at pos = 0. -/
theorem verify_eq_specVerify_witness :
    verify (N := 1) (⟨1⟩ : Commitment (ZMod 5)) ⟨[1], 1⟩ 1 0 0
      = some (specVerify (N := 1) (⟨1⟩ : Commitment (ZMod 5)) ⟨[1], 1⟩ 1 0 0) :=
  verify_eq_specVerify ⟨1⟩ ⟨[1], 1⟩ 1 0 0 (by decide) (by decide) (by decide)

/-- C7: commit is a pure function of the pair (proverParam, inputs): equal
arguments give equal commitments as group elements, and byte-identical
to_bytes output. -/
theorem commit_deterministic {r : ℕ} [Fact (Nat.Prime r)] {N : ℕ} (k : ℕ)
    (pp₁ pp₂ : ProverParam (ZMod r) N) (xs₁ xs₂ : List (ZMod r))
    (hp : pp₁ = pp₂) (hx : xs₁ = xs₂) :
    commit pp₁ xs₁ = commit pp₂ xs₂ ∧
      Option.map (fun c => to_bytes c k) (commit pp₁ xs₁)
        = Option.map (fun c => to_bytes c k) (commit pp₂ xs₂) := by
  subst hp
  subst hx
  exact ⟨rfl, rfl⟩

/-- C7, witness: a concrete repeated call over ZMod 5. -/
theorem commit_deterministic_witness :
    commit (N := 1) (⟨[1]⟩ : ProverParam (ZMod 5) 1) [2]
        = commit (N := 1) (⟨[1]⟩ : ProverParam (ZMod 5) 1) [2] ∧
      Option.map (fun c => to_bytes c 1)
          (commit (N := 1) (⟨[1]⟩ : ProverParam (ZMod 5) 1) [2])
        = Option.map (fun c => to_bytes c 1)
          (commit (N := 1) (⟨[1]⟩ : ProverParam (ZMod 5) 1) [2]) :=
  commit_deterministic 1 ⟨[1]⟩ ⟨[1]⟩ [2] [2] rfl rfl

/-- C8: the serialization round-trip: re-parsing the to_bytes output of a
commitment with the modelled canonical decoding yields a group element equal
to the original, whenever the encoding width covers the group order; this
covers every commitment, in particular those of the empty vector, of a single
element and of a vector at capacity. -/
theorem to_bytes_roundtrip {r : ℕ} [NeZero r] (k : ℕ)
    (c : Commitment (ZMod r)) (h : r ≤ 256 ^ k) :
    fromBytes r (to_bytes c k) = c.inner := by
  unfold fromBytes to_bytes
  rw [fromBytesLE_bytesLE,
    Nat.mod_eq_of_lt (lt_of_lt_of_le (ZMod.val_lt c.inner) h)]
  exact ZMod.natCast_rightInverse c.inner

/-- C8, witness: a one-byte round-trip over ZMod 5. -/
theorem to_bytes_roundtrip_witness :
    fromBytes 5 (to_bytes (⟨3⟩ : Commitment (ZMod 5)) 1)
      = (⟨3⟩ : Commitment (ZMod 5)).inner :=
  to_bytes_roundtrip 1 ⟨3⟩ (by norm_num)

/-- When the inversion, the index arithmetic and the SRS read all succeed,
verify is the decided pairing-product equation. -/
lemma verify_some {F : Type} [Field F] [DecidableEq F] {N : ℕ}
    (c : Commitment F) (vp : VerifierParam F N) (v : F) (pos : ℕ) (w : F)
    (hj : F) (hv : v ≠ 0) (hpos : ¬ N < pos + 1)
    (hh : vp.h[N - pos - 1]? = some hj) :
    verify c vp v pos w
      = some (decide (c.inner * v⁻¹ * hj + w * -v⁻¹ * 1 = vp.t)) := by
  unfold verify
  rw [if_neg hv, if_neg hpos, hh]

/-- C1, completeness: over parameters from one setup, for every vector of at
most N inputs and every position pos < len with a nonzero entry there, the
chain verify(commit(pp, inputs), vp, inputs[pos], pos, open(pp, inputs, pos))
returns true. -/
theorem vc_completeness {F : Type} [Field F] [DecidableEq F] (N : ℕ) (α : F)
    (inputs : List F) (pos : ℕ) (hlen : inputs.length ≤ N)
    (hpos : pos < inputs.length) (hnz : inputs.getD pos 0 ≠ 0) :
    ((commit (setup F N α).1 inputs).bind fun c =>
        (openAt (setup F N α).1 inputs pos).bind fun w =>
          verify c (setup F N α).2 (inputs.getD pos 0) pos w)
      = some true := by
  have hposN : pos < N := lt_of_lt_of_le hpos hlen
  rw [commit_setup N α inputs hlen,
    openAt_setup N α inputs pos hlen (by omega)]
  simp only [Option.some_bind]
  rw [verify_some _ _ _ _ _ (α ^ (N - pos)) hnz (by omega)
      (by rw [setup_h_getElem N α (N - pos - 1) (by omega),
            show N - pos - 1 + 1 = N - pos by omega]),
    show (setup F N α).2.t = α ^ (N + 1) from rfl]
  have hkey := key_cancel N α inputs pos hpos hlen
  have hP : (∑ i in Finset.range inputs.length,
        inputs.getD i 0 * α ^ (i + 1)) * (inputs.getD pos 0)⁻¹
          * α ^ (N - pos)
        + (∑ i in Finset.range inputs.length,
            inputs.getD i 0
              * (if N - pos + i = N then 0 else α ^ (N - pos + i + 1)))
          * -(inputs.getD pos 0)⁻¹ * 1
      = α ^ (N + 1) := by
    have h2 : (∑ i in Finset.range inputs.length,
          inputs.getD i 0 * α ^ (i + 1)) * (inputs.getD pos 0)⁻¹
            * α ^ (N - pos)
          + (∑ i in Finset.range inputs.length,
              inputs.getD i 0
                * (if N - pos + i = N then 0 else α ^ (N - pos + i + 1)))
            * -(inputs.getD pos 0)⁻¹ * 1
        = (inputs.getD pos 0)⁻¹
            * ((∑ i in Finset.range inputs.length,
                inputs.getD i 0 * α ^ (i + 1)) * α ^ (N - pos)
              - ∑ i in Finset.range inputs.length,
                  inputs.getD i 0
                    * (if N - pos + i = N then 0
                       else α ^ (N - pos + i + 1))) := by
      ring
    rw [h2, hkey, ← mul_assoc, inv_mul_cancel₀ hnz, one_mul]
  rw [decide_eq_true hP]

/-- C1, witness: a concrete run over ZMod 5 with N = 2, trapdoor 2, inputs
[1, 2], opened at position 1. -/
theorem vc_completeness_witness :
    ((commit (setup (ZMod 5) 2 2).1 [1, 2]).bind fun c =>
        (openAt (setup (ZMod 5) 2 2).1 [1, 2] 1).bind fun w =>
          verify c (setup (ZMod 5) 2 2).2
            (([1, 2] : List (ZMod 5)).getD 1 0) 1 w)
      = some true :=
  vc_completeness 2 2 [1, 2] 1 (by decide) (by decide) (by decide)

/-- C6, soundness under value substitution: over parameters from one setup
with a nonzero trapdoor, for a genuine triple (pos, inputs[pos], witness) with
inputs[pos] ≠ 0 and any nonzero claimed value distinct from inputs[pos],
verify returns false. -/
theorem vc_soundness {F : Type} [Field F] [DecidableEq F] (N : ℕ) (α : F)
    (hα : α ≠ 0) (inputs : List F) (pos : ℕ) (hlen : inputs.length ≤ N)
    (hpos : pos < inputs.length) (hnz : inputs.getD pos 0 ≠ 0)
    (v : F) (hv0 : v ≠ 0) (hvne : v ≠ inputs.getD pos 0) :
    ((commit (setup F N α).1 inputs).bind fun c =>
        (openAt (setup F N α).1 inputs pos).bind fun w =>
          verify c (setup F N α).2 v pos w)
      = some false := by
  have hposN : pos < N := lt_of_lt_of_le hpos hlen
  rw [commit_setup N α inputs hlen,
    openAt_setup N α inputs pos hlen (by omega)]
  simp only [Option.some_bind]
  rw [verify_some _ _ _ _ _ (α ^ (N - pos)) hv0 (by omega)
      (by rw [setup_h_getElem N α (N - pos - 1) (by omega),
            show N - pos - 1 + 1 = N - pos by omega]),
    show (setup F N α).2.t = α ^ (N + 1) from rfl]
  have hkey := key_cancel N α inputs pos hpos hlen
  have hNP : ¬ ((∑ i in Finset.range inputs.length,
        inputs.getD i 0 * α ^ (i + 1)) * v⁻¹ * α ^ (N - pos)
        + (∑ i in Finset.range inputs.length,
            inputs.getD i 0
              * (if N - pos + i = N then 0 else α ^ (N - pos + i + 1)))
          * -v⁻¹ * 1
      = α ^ (N + 1)) := by
    intro hEq
    have h2 : v⁻¹ * (inputs.getD pos 0 * α ^ (N + 1)) = α ^ (N + 1) := by
      calc v⁻¹ * (inputs.getD pos 0 * α ^ (N + 1))
          = v⁻¹ * ((∑ i in Finset.range inputs.length,
                inputs.getD i 0 * α ^ (i + 1)) * α ^ (N - pos)
              - ∑ i in Finset.range inputs.length,
                  inputs.getD i 0
                    * (if N - pos + i = N then 0
                       else α ^ (N - pos + i + 1))) := by rw [hkey]
        _ = (∑ i in Finset.range inputs.length,
                inputs.getD i 0 * α ^ (i + 1)) * v⁻¹ * α ^ (N - pos)
              + (∑ i in Finset.range inputs.length,
                  inputs.getD i 0
                    * (if N - pos + i = N then 0
                       else α ^ (N - pos + i + 1)))
                * -v⁻¹ * 1 := by ring
        _ = α ^ (N + 1) := hEq
    have hpow : (α : F) ^ (N + 1) ≠ 0 := pow_ne_zero _ hα
    have h3 : v⁻¹ * inputs.getD pos 0 * α ^ (N + 1) = 1 * α ^ (N + 1) := by
      rw [one_mul, mul_assoc]
      exact h2
    have h4 : v⁻¹ * inputs.getD pos 0 = 1 := mul_right_cancel₀ hpow h3
    exact hvne ((inv_mul_eq_one₀ hv0).mp h4)
  rw [decide_eq_false hNP]

/-- C6, witness: the genuine triple for inputs [1, 2] at position 1 over
ZMod 5 with trapdoor 2, challenged with the substituted value 3 ≠ 2. -/
theorem vc_soundness_witness :
    ((commit (setup (ZMod 5) 2 2).1 [1, 2]).bind fun c =>
        (openAt (setup (ZMod 5) 2 2).1 [1, 2] 1).bind fun w =>
          verify c (setup (ZMod 5) 2 2).2 3 1 w)
      = some false :=
  vc_soundness 2 2 (by decide) [1, 2] 1 (by decide) (by decide) (by decide)
    3 (by decide) (by decide)

end BlockCommitment
